import Mathlib

/-!
Verification of the NDI bridge receiver (`src/join-python/receiver.py`).

A byte string is modelled as a `List Nat`; Python `bytes` concatenation is
list append.  The Python `dict` keyed by fragment index is modelled as an
association list together with `dictInsert`, which overwrites in place when
the key is present (the key order of a Python dict is never observed by the
code: reassembly iterates `range(frag_count)` explicitly).  The Python
`KeyError` that `b''.join(self.fragments[i] for i in range(frag_count))`
can raise is modelled by `Except`: `.error ()` is an uncaught exception.
-/

abbrev ByteStr := List Nat

/-- Protocol constant `MAGIC = 0x4E444942` of receiver.py. -/
def MAGIC : Nat := 0x4E444942

/-- Protocol constant `HEADER_SIZE = 38` of receiver.py. -/
def HEADER_SIZE : Nat := 38

/-- The dictionary produced by `parse_header` in receiver.py. -/
structure PacketHeader where
  magic : Nat
  version : Nat
  media_type : Nat
  source_id : Nat
  flags : Nat
  sequence_number : Nat
  timestamp : Nat
  total_size : Nat
  fragment_index : Nat
  fragment_count : Nat
  payload_size : Nat
  sample_rate : Nat
  channels : Nat
  is_keyframe : Bool
deriving DecidableEq, Repr

/-- Big-endian integer read of `n` bytes starting at `off`, the model of
`struct.unpack` with format `>I`, `>Q`, `>H` on a slice of the datagram. -/
def readBE (data : ByteStr) (off n : Nat) : Nat :=
  ((data.drop off).take n).foldl (fun a b => a * 256 + b) 0

/-- `parse_header` of receiver.py: `none` when the datagram is shorter than
38 bytes or its first four bytes are not the big-endian magic; otherwise the
header fields at the fixed offsets of the wire table. -/
def parse_header (data : ByteStr) : Option PacketHeader :=
  if data.length < HEADER_SIZE then none
  else
    let magic := readBE data 0 4
    if magic ≠ MAGIC then none
    else some {
      magic := magic
      version := data.getD 4 0
      media_type := data.getD 5 0
      source_id := data.getD 6 0
      flags := data.getD 7 0
      sequence_number := readBE data 8 4
      timestamp := readBE data 12 8
      total_size := readBE data 20 4
      fragment_index := readBE data 24 2
      fragment_count := readBE data 26 2
      payload_size := readBE data 28 2
      sample_rate := readBE data 30 4
      channels := data.getD 34 0
      is_keyframe := data.getD 7 0 &&& 1 == 1 }

/-- Lookup in an association list keyed by fragment index (first match),
the model of Python dict access `m[k]` returning a value or raising. -/
def findKey {β : Type} : List (Nat × β) → Nat → Option β
  | [], _ => none
  | e :: t, k => if e.1 = k then some e.2 else findKey t k

/-- `m[k] = v` on a Python dict: overwrite in place when the key is present,
append otherwise. -/
def dictInsert {β : Type} (m : List (Nat × β)) (k : Nat) (v : β) : List (Nat × β) :=
  if (findKey m k).isSome then m.map (fun e => if e.1 = k then (k, v) else e)
  else m ++ [(k, v)]

/-- Values of the fragment map at the given keys, in key-list order; `none`
when some key is absent — the model of the generator
`self.fragments[i] for i in range(frag_count)`, whose missing key raises
`KeyError`. -/
def collectRange {β : Type} (m : List (Nat × β)) : List Nat → Option (List β)
  | [] => some []
  | i :: is =>
    match findKey m i with
    | none => none
    | some v => (collectRange m is).map (fun vs => v :: vs)

/-- State of `FrameReassembler`: `fragments`, `current_sequence`
(`None` initially and after a completed frame), `expected_count`. -/
structure Reassembler where
  fragments : List (Nat × ByteStr)
  current_sequence : Option Nat
  expected_count : Nat
deriving DecidableEq, Repr

/-- `FrameReassembler.__init__`: empty map, no current sequence, count 0. -/
def initReassembler : Reassembler :=
  { fragments := [], current_sequence := none, expected_count := 0 }

/-- `FrameReassembler.add_fragment` of receiver.py.  On a sequence change the
state is reset and `expected_count` recorded from the incoming header; the
payload is stored at `fragment_index`; completion is checked against the
incoming header's `fragment_count`; on completion the fragments are joined
over indices `0..fragment_count-1` (an absent index raises `KeyError`,
modelled as `.error ()`), the map cleared and `current_sequence` set to
`None`. -/
def add_fragment (r : Reassembler) (h : PacketHeader) (payload : ByteStr) :
    Except Unit (Reassembler × Option ByteStr) :=
  let r1 : Reassembler :=
    if r.current_sequence = some h.sequence_number then r
    else { fragments := [], current_sequence := some h.sequence_number,
           expected_count := h.fragment_count }
  let frags := dictInsert r1.fragments h.fragment_index payload
  if frags.length = h.fragment_count then
    match collectRange frags (List.range h.fragment_count) with
    | some parts =>
      Except.ok ({ fragments := [], current_sequence := none,
                   expected_count := r1.expected_count }, some parts.flatten)
    | none => Except.error ()
  else Except.ok ({ r1 with fragments := frags }, none)

/-- A sequence of `add_fragment` calls on one reassembler, threading the
state and recording each call's return value; an uncaught exception aborts
the run. -/
def runTrace (r : Reassembler) :
    List (PacketHeader × ByteStr) → Except Unit (Reassembler × List (Option ByteStr))
  | [] => Except.ok (r, [])
  | (h, pl) :: rest =>
    match add_fragment r h pl with
    | Except.error e => Except.error e
    | Except.ok (r', out) =>
      match runTrace r' rest with
      | Except.error e => Except.error e
      | Except.ok (r'', outs) => Except.ok (r'', out :: outs)

/-- The sequence numbers of the frames emitted along a trace of
`add_fragment` calls, in emission order (a frame emitted by a call carries
that call's `sequence_number`, since at the return the call's sequence is
the current one). -/
def emittedSeqs (r : Reassembler) : List (PacketHeader × ByteStr) → List Nat
  | [] => []
  | (h, pl) :: rest =>
    match add_fragment r h pl with
    | Except.error _ => []
    | Except.ok (r', none) => emittedSeqs r' rest
    | Except.ok (r', some _) => h.sequence_number :: emittedSeqs r' rest

/-- Header whose reassembly-relevant fields are `seq`, `idx`, `cnt`; the
fields `add_fragment` never reads are zero. -/
def mkHeader (seq idx cnt : Nat) : PacketHeader :=
  { magic := MAGIC, version := 0, media_type := 0, source_id := 0, flags := 0,
    sequence_number := seq, timestamp := 0, total_size := 0,
    fragment_index := idx, fragment_count := cnt, payload_size := 0,
    sample_rate := 0, channels := 0, is_keyframe := false }

/-- The mutable fields of `NDIBridgeReceiver` the claims are about: the two
reassemblers and the stats counters (`last_stats_time` as an integer clock
reading). -/
structure ReceiverState where
  video_reassembler : Reassembler
  audio_reassembler : Reassembler
  packets_received : Nat
  bytes_received : Nat
  video_frames : Nat
  audio_frames : Nat
  last_stats_time : Int
deriving DecidableEq, Repr

/-- `NDIBridgeReceiver.__init__`: fresh reassemblers, zero counters. -/
def initReceiverState : ReceiverState :=
  { video_reassembler := initReassembler, audio_reassembler := initReassembler,
    packets_received := 0, bytes_received := 0, video_frames := 0,
    audio_frames := 0, last_stats_time := 0 }

/-- Observable outcome of one `process_packet` call: parse failure (packet
ignored), no completed frame, a completed video frame handed to the decoder
input, or a completed audio frame handed to the sink. -/
inductive PacketAction where
  | noHeader : PacketAction
  | noFrame : PacketAction
  | videoFrame : ByteStr → PacketAction
  | audioFrame : ByteStr → Nat → Nat → PacketAction
deriving DecidableEq, Repr

/-- `NDIBridgeReceiver.process_packet` of receiver.py.  A header parse
failure returns with no state change; otherwise the packet and byte counters
grow, the payload is the slice `data[38 : 38 + payload_size]` (silently
truncated when the datagram is short), and the packet is routed by
`media_type` (0 video, 1 audio, anything else dropped after counting).  The
Python truthiness test `if frame:` makes an empty completed frame
indistinguishable from no frame downstream (nothing is written, and the
audio frame counter does not grow). -/
def process_packet (s : ReceiverState) (data : ByteStr) :
    Except Unit (ReceiverState × PacketAction) :=
  match parse_header data with
  | none => Except.ok (s, PacketAction.noHeader)
  | some header =>
    let s1 := { s with packets_received := s.packets_received + 1,
                       bytes_received := s.bytes_received + data.length }
    let payload := (data.drop HEADER_SIZE).take header.payload_size
    if header.media_type = 0 then
      match add_fragment s1.video_reassembler header payload with
      | Except.error e => Except.error e
      | Except.ok (vr, none) =>
        Except.ok ({ s1 with video_reassembler := vr }, PacketAction.noFrame)
      | Except.ok (vr, some frame) =>
        Except.ok ({ s1 with video_reassembler := vr },
          if frame = [] then PacketAction.noFrame else PacketAction.videoFrame frame)
    else if header.media_type = 1 then
      match add_fragment s1.audio_reassembler header payload with
      | Except.error e => Except.error e
      | Except.ok (ar, none) =>
        Except.ok ({ s1 with audio_reassembler := ar }, PacketAction.noFrame)
      | Except.ok (ar, some frame) =>
        if frame = [] then
          Except.ok ({ s1 with audio_reassembler := ar }, PacketAction.noFrame)
        else
          Except.ok ({ s1 with audio_reassembler := ar, audio_frames := s1.audio_frames + 1 },
            PacketAction.audioFrame frame header.sample_rate header.channels)
    else Except.ok (s1, PacketAction.noFrame)

/-- `NDIBridgeReceiver.log_stats` of receiver.py: a report line is printed
when the interval is positive and at least one packet arrived; all four
counters are then set to zero unconditionally and the window timestamp
advanced.  The returned Bool records whether a report was emitted. -/
def log_stats (s : ReceiverState) (now : Int) : ReceiverState × Bool :=
  let elapsed := now - s.last_stats_time
  ({ s with packets_received := 0, bytes_received := 0,
            video_frames := 0, audio_frames := 0, last_stats_time := now },
   decide (0 < elapsed ∧ 0 < s.packets_received))

deriving instance DecidableEq for Except

/-- The fragment map holding `p i` at each index `i` of `l`, in order. -/
def canon (l : List Nat) (p : Nat → ByteStr) : List (Nat × ByteStr) :=
  l.map fun i => (i, p i)

/-- The externally visible outcome of one `add_fragment` call: `none` for an
uncaught exception, otherwise the returned value (a completed frame or
Python `None`), forgetting the post-state. -/
def outcomeOf : Except Unit (Reassembler × Option ByteStr) → Option (Option ByteStr)
  | Except.error _ => none
  | Except.ok (_, out) => some out

/-- Ghost-instrumented reassembler state: identical to `Reassembler` except
that each stored payload also carries (as a ghost tag, never read by the
code) the sequence number of the `add_fragment` call that stored it. -/
structure TReassembler where
  fragments : List (Nat × (ByteStr × Nat))
  current_sequence : Option Nat
  expected_count : Nat
deriving DecidableEq, Repr

def initTReassembler : TReassembler :=
  { fragments := [], current_sequence := none, expected_count := 0 }

/-- Forget the ghost tags, recovering the state of the source code. -/
def stripTags (r : TReassembler) : Reassembler :=
  { fragments := r.fragments.map (fun e => (e.1, e.2.1)),
    current_sequence := r.current_sequence, expected_count := r.expected_count }

/-- `add_fragment` on the ghost-instrumented state: the control flow is that
of `add_fragment` verbatim (see `tadd_fragment_proj`), with the storing
call's sequence number recorded next to the payload. -/
def tadd_fragment (r : TReassembler) (h : PacketHeader) (payload : ByteStr) :
    Except Unit (TReassembler × Option ByteStr) :=
  let r1 : TReassembler :=
    if r.current_sequence = some h.sequence_number then r
    else { fragments := [], current_sequence := some h.sequence_number,
           expected_count := h.fragment_count }
  let frags := dictInsert r1.fragments h.fragment_index (payload, h.sequence_number)
  if frags.length = h.fragment_count then
    match collectRange (frags.map fun e => (e.1, e.2.1)) (List.range h.fragment_count) with
    | some parts =>
      Except.ok ({ fragments := [], current_sequence := none,
                   expected_count := r1.expected_count }, some parts.flatten)
    | none => Except.error ()
  else Except.ok ({ r1 with fragments := frags }, none)

/-- Ghost-instrumented states reachable by `add_fragment` calls from the
initial reassembler state. -/
inductive TReachable : TReassembler → Prop
  | init : TReachable initTReassembler
  | step (r r' : TReassembler) (h : PacketHeader) (pl : ByteStr) (out : Option ByteStr) :
      TReachable r → tadd_fragment r h pl = Except.ok (r', out) → TReachable r'

/-- A 38-byte datagram with valid magic, media_type 0, sequence_number 0,
fragment_index 1, fragment_count 1, payload_size 0. -/
def c3data : ByteStr :=
  [0x4E, 0x44, 0x49, 0x42, 0, 0, 0, 0,
   0, 0, 0, 0,
   0, 0, 0, 0, 0, 0, 0, 0,
   0, 0, 0, 0,
   0, 1, 0, 1, 0, 0,
   0, 0, 0, 0, 0,
   0, 0, 0]

/-- A 38-byte datagram with valid magic and representative field values:
version 1, media_type 0, source_id 7, flags 1, sequence_number 42,
timestamp 9, total_size 6, fragment_index 0, fragment_count 2,
payload_size 3, sample_rate 44100, channels 2. -/
def c6data : ByteStr :=
  [0x4E, 0x44, 0x49, 0x42, 1, 0, 7, 1,
   0, 0, 0, 42,
   0, 0, 0, 0, 0, 0, 0, 9,
   0, 0, 0, 6,
   0, 0, 0, 2, 0, 3,
   0, 0, 0xAC, 0x44, 2,
   0, 0, 0]

/-- A 40-byte datagram declaring payload_size 4 but carrying only 2 payload
bytes after its 38-byte header: media_type 0, sequence_number 0,
fragment_index 0, fragment_count 1. -/
def w10data : ByteStr :=
  [0x4E, 0x44, 0x49, 0x42, 0, 0, 0, 0,
   0, 0, 0, 0,
   0, 0, 0, 0, 0, 0, 0, 0,
   0, 0, 0, 0,
   0, 0, 0, 1, 0, 4,
   0, 0, 0, 0, 0,
   0, 0, 0,
   65, 66]

/-- The header `parse_header` extracts from `w10data`. -/
def w10hdr : PacketHeader :=
  { magic := 0x4E444942, version := 0, media_type := 0, source_id := 0, flags := 0,
    sequence_number := 0, timestamp := 0, total_size := 0, fragment_index := 0,
    fragment_count := 1, payload_size := 4, sample_rate := 0, channels := 0,
    is_keyframe := false }

/-! ### Basic lemmas about the fragment map -/

theorem canon_append (l l' : List Nat) (p : Nat → ByteStr) :
    canon (l ++ l') p = canon l p ++ canon l' p := by
  simp [canon]

theorem canon_length (l : List Nat) (p : Nat → ByteStr) :
    (canon l p).length = l.length := by
  simp [canon]

theorem findKey_canon (p : Nat → ByteStr) (l : List Nat) (k : Nat) :
    findKey (canon l p) k = if k ∈ l then some (p k) else none := by
  induction l with
  | nil => simp [canon, findKey]
  | cons i t ih =>
    by_cases hik : i = k
    · subst hik; simp [canon, findKey]
    · simp only [canon, List.map_cons, findKey, hik, if_false, List.mem_cons]
      simp only [canon] at ih
      rw [ih]
      by_cases hk : k ∈ t <;> simp [hk, Ne.symm hik]

theorem dictInsert_new {β : Type} (m : List (Nat × β)) (k : Nat) (v : β)
    (h : findKey m k = none) : dictInsert m k v = m ++ [(k, v)] := by
  simp [dictInsert, h]

theorem collectRange_eq {β : Type} (m : List (Nat × β)) (g : Nat → β) :
    ∀ is : List Nat, (∀ i ∈ is, findKey m i = some (g i)) →
      collectRange m is = some (is.map g) := by
  intro is
  induction is with
  | nil => intro _; simp [collectRange]
  | cons i t ih =>
    intro h
    have hi := h i (List.mem_cons_self i t)
    have ht := ih (fun j hj => h j (List.mem_cons_of_mem i hj))
    simp [collectRange, hi, ht]

/-! ### Step lemmas for `add_fragment` -/

theorem add_fragment_store (r : Reassembler) (h : PacketHeader) (pl : ByteStr)
    (hcur : r.current_sequence = some h.sequence_number)
    (hlen : (dictInsert r.fragments h.fragment_index pl).length ≠ h.fragment_count) :
    add_fragment r h pl =
      Except.ok ({ r with fragments := dictInsert r.fragments h.fragment_index pl }, none) := by
  simp [add_fragment, hcur, hlen]

theorem add_fragment_complete (r : Reassembler) (h : PacketHeader) (pl : ByteStr)
    (parts : List ByteStr)
    (hcur : r.current_sequence = some h.sequence_number)
    (hlen : (dictInsert r.fragments h.fragment_index pl).length = h.fragment_count)
    (hcol : collectRange (dictInsert r.fragments h.fragment_index pl)
              (List.range h.fragment_count) = some parts) :
    add_fragment r h pl =
      Except.ok ({ fragments := [], current_sequence := none,
                   expected_count := r.expected_count }, some parts.flatten) := by
  simp [add_fragment, hcur, hlen, hcol]

theorem add_fragment_keyerror (r : Reassembler) (h : PacketHeader) (pl : ByteStr)
    (hcur : r.current_sequence = some h.sequence_number)
    (hlen : (dictInsert r.fragments h.fragment_index pl).length = h.fragment_count)
    (hcol : collectRange (dictInsert r.fragments h.fragment_index pl)
              (List.range h.fragment_count) = none) :
    add_fragment r h pl = Except.error () := by
  simp [add_fragment, hcur, hlen, hcol]

theorem add_fragment_reset (r : Reassembler) (h : PacketHeader) (pl : ByteStr)
    (hne : r.current_sequence ≠ some h.sequence_number) :
    add_fragment r h pl =
      add_fragment { fragments := [], current_sequence := some h.sequence_number,
                     expected_count := h.fragment_count } h pl := by
  simp [add_fragment, hne]

/-! ### Trace composition -/

theorem runTrace_head_congr (r r' : Reassembler) (hd : PacketHeader × ByteStr)
    (t : List (PacketHeader × ByteStr))
    (h : add_fragment r hd.1 hd.2 = add_fragment r' hd.1 hd.2) :
    runTrace r (hd :: t) = runTrace r' (hd :: t) := by
  obtain ⟨hh, hp⟩ := hd
  simp only [runTrace]
  rw [h]

theorem runTrace_cons (r r' : Reassembler) (hh : PacketHeader) (pl : ByteStr)
    (out : Option ByteStr) (t : List (PacketHeader × ByteStr)) (r'' : Reassembler)
    (outs : List (Option ByteStr))
    (hadd : add_fragment r hh pl = Except.ok (r', out))
    (hrest : runTrace r' t = Except.ok (r'', outs)) :
    runTrace r ((hh, pl) :: t) = Except.ok (r'', out :: outs) := by
  simp [runTrace, hadd, hrest]

theorem runTrace_append (t2 : List (PacketHeader × ByteStr)) :
    ∀ (t1 : List (PacketHeader × ByteStr)) (r r1 r2 : Reassembler)
      (o1 o2 : List (Option ByteStr)),
      runTrace r t1 = Except.ok (r1, o1) → runTrace r1 t2 = Except.ok (r2, o2) →
      runTrace r (t1 ++ t2) = Except.ok (r2, o1 ++ o2) := by
  intro t1
  induction t1 with
  | nil =>
    intro r r1 r2 o1 o2 h1 h2
    simp only [runTrace] at h1
    cases h1
    simpa using h2
  | cons hd t ih =>
    intro r r1 r2 o1 o2 h1 h2
    obtain ⟨hh, hp⟩ := hd
    simp only [List.cons_append, runTrace] at h1 ⊢
    cases hadd : add_fragment r hh hp with
    | error e => simp [hadd] at h1
    | ok res =>
      obtain ⟨r', out⟩ := res
      simp only [hadd] at h1 ⊢
      cases hrun : runTrace r' t with
      | error e => simp [hrun] at h1
      | ok res2 =>
        obtain ⟨r'', outs⟩ := res2
        simp only [hrun, Except.ok.injEq, Prod.mk.injEq] at h1
        obtain ⟨rfl, rfl⟩ := h1
        simp [ih r' r'' r2 outs o2 hrun h2]

/-! ### Canonical reassembly runs -/

theorem mem_of_nodup_length (A : List Nat) (N : Nat) (hnd : A.Nodup)
    (hsub : ∀ i ∈ A, i < N) (hlen : A.length = N) : ∀ i, i < N → i ∈ A := by
  have hsub' : A ⊆ List.range N := fun i hi => List.mem_range.mpr (hsub i hi)
  have hsp := List.subperm_of_subset hnd hsub'
  have hperm := hsp.perm_of_length_le (by simp [hlen])
  intro i hi
  exact hperm.mem_iff.mpr (List.mem_range.mpr hi)

theorem add_canon_store (S N j : Nat) (acc : List Nat) (p : Nat → ByteStr)
    (hj : j ∉ acc) (hlen : acc.length + 1 ≠ N) :
    add_fragment { fragments := canon acc p, current_sequence := some S, expected_count := N }
        (mkHeader S j N) (p j) =
      Except.ok ({ fragments := canon (acc ++ [j]) p, current_sequence := some S,
                   expected_count := N }, none) := by
  have hfind : findKey (canon acc p) j = none := by
    rw [findKey_canon]; simp [hj]
  have hins : dictInsert (canon acc p) j (p j) = canon (acc ++ [j]) p := by
    rw [dictInsert_new _ _ _ hfind, canon_append]; rfl
  have hlen2 : (dictInsert (canon acc p) j (p j)).length ≠ (mkHeader S j N).fragment_count := by
    rw [hins, canon_length]
    simpa [mkHeader] using hlen
  have h := add_fragment_store
    { fragments := canon acc p, current_sequence := some S, expected_count := N }
    (mkHeader S j N) (p j) rfl hlen2
  rw [← hins]
  exact h

theorem add_canon_complete (S N j : Nat) (acc : List Nat) (p : Nat → ByteStr)
    (hj : j ∉ acc) (hlen : acc.length + 1 = N)
    (hall : ∀ i, i < N → i ∈ acc ++ [j]) :
    add_fragment { fragments := canon acc p, current_sequence := some S, expected_count := N }
        (mkHeader S j N) (p j) =
      Except.ok ({ fragments := [], current_sequence := none, expected_count := N },
                 some ((List.range N).map p).flatten) := by
  have hfind : findKey (canon acc p) j = none := by
    rw [findKey_canon]; simp [hj]
  have hins : dictInsert (canon acc p) j (p j) = canon (acc ++ [j]) p := by
    rw [dictInsert_new _ _ _ hfind, canon_append]; rfl
  have hlen2 : (dictInsert (canon acc p) j (p j)).length = (mkHeader S j N).fragment_count := by
    rw [hins, canon_length]
    simpa [mkHeader] using hlen
  have hcol : collectRange (dictInsert (canon acc p) j (p j)) (List.range N) =
      some ((List.range N).map p) := by
    rw [hins]
    exact collectRange_eq _ p _ (fun i hi => by
      rw [findKey_canon]
      simp [hall i (List.mem_range.mp hi)])
  have h := add_fragment_complete
    { fragments := canon acc p, current_sequence := some S, expected_count := N }
    (mkHeader S j N) (p j) ((List.range N).map p) rfl hlen2 hcol
  exact h

theorem runTrace_rest (S N : Nat) (p : Nat → ByteStr) :
    ∀ (perm acc : List Nat), perm ≠ [] →
      (acc ++ perm).Nodup → (∀ i ∈ acc ++ perm, i < N) → (acc ++ perm).length = N →
      runTrace { fragments := canon acc p, current_sequence := some S, expected_count := N }
          (perm.map fun i => (mkHeader S i N, p i)) =
        Except.ok ({ fragments := [], current_sequence := none, expected_count := N },
          List.replicate (perm.length - 1) none ++ [some ((List.range N).map p).flatten]) := by
  intro perm
  induction perm with
  | nil => intro acc hne _ _ _; exact absurd rfl hne
  | cons j t ih =>
    intro acc _ hnd hsub hlen
    have hj : j ∉ acc := by
      rcases List.nodup_append.mp hnd with ⟨_, _, hdisj⟩
      intro hmem
      exact hdisj hmem (List.mem_cons_self j t)
    cases t with
    | nil =>
      have hlen1 : acc.length + 1 = N := by simpa using hlen
      have hall : ∀ i, i < N → i ∈ acc ++ [j] :=
        mem_of_nodup_length (acc ++ [j]) N hnd hsub (by simpa using hlen1)
      simp only [List.map_cons, List.map_nil, runTrace]
      rw [add_canon_complete S N j acc p hj hlen1 hall]
      simp
    | cons k t' =>
      have hL := hlen
      simp only [List.length_append, List.length_cons] at hL
      have hlen2 : acc.length + 1 ≠ N := by omega
      have hstep := add_canon_store S N j acc p hj hlen2
      have hnd' : ((acc ++ [j]) ++ k :: t').Nodup := by
        simpa [List.append_assoc] using hnd
      have hsub' : ∀ i ∈ (acc ++ [j]) ++ k :: t', i < N := by
        intro i hi
        apply hsub
        simpa [List.append_assoc] using hi
      have hlen' : ((acc ++ [j]) ++ k :: t').length = N := by
        simp only [List.length_append, List.length_cons, List.length_nil]
        omega
      have hih := ih (acc ++ [j]) (by simp) hnd' hsub' hlen'
      simp only [List.map_cons] at hih ⊢
      have hout : List.replicate ((j :: k :: t').length - 1) (none : Option ByteStr) ++
          [some ((List.range N).map p).flatten] =
          none :: (List.replicate ((k :: t').length - 1) none ++
            [some ((List.range N).map p).flatten]) := by
        simp [List.replicate_succ]
      rw [hout]
      exact runTrace_cons _ _ _ _ _ _ _ _ hstep hih

theorem runTrace_under (S N : Nat) (p : Nat → ByteStr) :
    ∀ (l acc : List Nat), (acc ++ l).Nodup → (∀ i ∈ acc ++ l, i < N) →
      (acc ++ l).length < N →
      runTrace { fragments := canon acc p, current_sequence := some S, expected_count := N }
          (l.map fun i => (mkHeader S i N, p i)) =
        Except.ok ({ fragments := canon (acc ++ l) p, current_sequence := some S,
                     expected_count := N }, List.replicate l.length none) := by
  intro l
  induction l with
  | nil => intro acc _ _ _; simp [runTrace]
  | cons j t ih =>
    intro acc hnd hsub hlen
    have hj : j ∉ acc := by
      rcases List.nodup_append.mp hnd with ⟨_, _, hdisj⟩
      intro hmem
      exact hdisj hmem (List.mem_cons_self j t)
    have hL := hlen
    simp only [List.length_append, List.length_cons] at hL
    have hlen2 : acc.length + 1 ≠ N := by omega
    have hstep := add_canon_store S N j acc p hj hlen2
    have hnd' : ((acc ++ [j]) ++ t).Nodup := by
      simpa [List.append_assoc] using hnd
    have hsub' : ∀ i ∈ (acc ++ [j]) ++ t, i < N := by
      intro i hi
      apply hsub
      simpa [List.append_assoc] using hi
    have hlen' : ((acc ++ [j]) ++ t).length < N := by
      simp only [List.length_append, List.length_cons, List.length_nil]
      omega
    have hih := ih (acc ++ [j]) hnd' hsub' hlen'
    have hstate : canon ((acc ++ [j]) ++ t) p = canon (acc ++ j :: t) p := by
      simp [List.append_assoc]
    rw [hstate] at hih
    simp only [List.map_cons, List.length_cons, List.replicate_succ]
    exact runTrace_cons _ _ _ _ _ _ _ _ hstep hih

theorem runTrace_fresh (S N : Nat) (p : Nat → ByteStr) (perm : List Nat) (r : Reassembler)
    (hne : r.current_sequence ≠ some S) (hN : 1 ≤ N) (hperm : perm.Perm (List.range N)) :
    runTrace r (perm.map fun i => (mkHeader S i N, p i)) =
      Except.ok ({ fragments := [], current_sequence := none, expected_count := N },
        List.replicate (N - 1) none ++ [some ((List.range N).map p).flatten]) := by
  have hnd : perm.Nodup := hperm.nodup_iff.mpr (List.nodup_range N)
  have hsub : ∀ i ∈ perm, i < N := fun i hi => List.mem_range.mp (hperm.mem_iff.mp hi)
  have hlen : perm.length = N := by simpa using hperm.length_eq
  obtain ⟨j, t, rfl⟩ : ∃ j t, perm = j :: t := by
    cases perm with
    | nil => exact absurd (hlen.symm.trans rfl) (by simp at hlen; omega)
    | cons j t => exact ⟨j, t, rfl⟩
  have hcongr : add_fragment r (mkHeader S j N) (p j) =
      add_fragment { fragments := [], current_sequence := some S, expected_count := N }
        (mkHeader S j N) (p j) :=
    add_fragment_reset r (mkHeader S j N) (p j) hne
  simp only [List.map_cons]
  refine (runTrace_head_congr r
    { fragments := [], current_sequence := some S, expected_count := N }
    (mkHeader S j N, p j) (t.map fun i => (mkHeader S i N, p i)) hcongr).trans ?_
  have h2 := runTrace_rest S N p (j :: t) [] (by simp) (by simpa using hnd)
    (by simpa using hsub) (by simpa using hlen)
  simp only [List.map_cons] at h2
  rw [hlen] at h2
  exact h2

/-- C1: for every N >= 1 and sequence S whose N fragments carry
fragmentCount = N and distinct indices 0..N-1, delivering them to
`add_fragment` in any permutation returns none on each of the first N-1
calls and, on the Nth, the frame equal to the concatenation of the payloads
in index order 0..N-1. -/
theorem C1_perm_reassembly (N S : Nat) (hN : 1 ≤ N) (p : Nat → ByteStr)
    (perm : List Nat) (hperm : perm.Perm (List.range N)) :
    runTrace initReassembler (perm.map fun i => (mkHeader S i N, p i)) =
      Except.ok ({ fragments := [], current_sequence := none, expected_count := N },
        List.replicate (N - 1) none ++ [some ((List.range N).map p).flatten]) :=
  runTrace_fresh S N p perm initReassembler (by simp [initReassembler]) hN hperm

theorem C1_perm_reassembly_witness :
    1 ≤ 3 ∧ List.Perm [2, 0, 1] (List.range 3) ∧
    runTrace initReassembler ([2, 0, 1].map fun i => (mkHeader 6 i 3, [40 + i])) =
      Except.ok ({ fragments := [], current_sequence := none, expected_count := 3 },
        [none, none, some [40, 41, 42]]) := by
  refine ⟨by decide, by decide, ?_⟩
  have h := C1_perm_reassembly 3 6 (by decide) (fun i => [40 + i]) [2, 0, 1] (by decide)
  simpa using h

/-- C7: a proper subset of sequence S's fragments followed by the fragments
of sequence S+1 only: no frame is emitted for S (every phase-1 call returns
none), S's partial data is discarded on S+1's first fragment, and the only
frame of the whole trace is S+1's, emitted on the call delivering the last
of S+1's own fragment indices. -/
theorem C7_supersession (S N M : Nat) (p q : Nat → ByteStr) (l perm : List Nat)
    (hnd : l.Nodup) (hsub : ∀ i ∈ l, i < N) (hlt : l.length < N)
    (hM : 1 ≤ M) (hperm : perm.Perm (List.range M)) :
    runTrace initReassembler
      ((l.map fun i => (mkHeader S i N, p i)) ++
        (perm.map fun i => (mkHeader (S + 1) i M, q i))) =
      Except.ok ({ fragments := [], current_sequence := none, expected_count := M },
        List.replicate l.length none ++
          (List.replicate (M - 1) none ++ [some ((List.range M).map q).flatten])) := by
  cases l with
  | nil =>
    have h := runTrace_fresh (S + 1) M q perm initReassembler (by simp [initReassembler]) hM hperm
    simpa using h
  | cons i0 l' =>
    have hcongr : add_fragment initReassembler (mkHeader S i0 N) (p i0) =
        add_fragment { fragments := [], current_sequence := some S, expected_count := N }
          (mkHeader S i0 N) (p i0) :=
      add_fragment_reset _ _ _ (by simp [initReassembler])
    simp only [List.map_cons, List.cons_append]
    refine (runTrace_head_congr initReassembler
      { fragments := [], current_sequence := some S, expected_count := N }
      (mkHeader S i0 N, p i0) _ hcongr).trans ?_
    have h1 := runTrace_under S N p (i0 :: l') [] (by simpa using hnd)
      (by simpa using hsub) (by simpa using hlt)
    have h2 := runTrace_fresh (S + 1) M q perm
      (⟨canon ([] ++ i0 :: l') p, some S, N⟩ : Reassembler) (by simp) hM hperm
    have h3 := runTrace_append (perm.map fun i => (mkHeader (S + 1) i M, q i))
      ((i0 :: l').map fun i => (mkHeader S i N, p i)) _ _ _ _ _ h1 h2
    simpa using h3

theorem C7_supersession_witness :
    ([0] : List Nat).Nodup ∧ (∀ i ∈ ([0] : List Nat), i < 2) ∧
    ([0] : List Nat).length < 2 ∧ 1 ≤ 1 ∧ List.Perm [0] (List.range 1) ∧
    runTrace initReassembler
      (([0].map fun i => (mkHeader 9 i 2, [50 + i])) ++
        ([0].map fun i => (mkHeader 10 i 1, [60 + i]))) =
      Except.ok ({ fragments := [], current_sequence := none, expected_count := 1 },
        [none, some [60]]) := by
  refine ⟨by decide, by decide, by decide, by decide, by decide, ?_⟩
  have h := C7_supersession 9 2 1 (fun i => [50 + i]) (fun i => [60 + i]) [0] [0]
    (by decide) (by decide) (by decide) (by decide) (by decide)
  simpa using h

/-- C9: after every execution of `log_stats` all four stats counters equal
zero — by universality also when zero packets arrived in the interval and no
report line was produced. -/
theorem C9_stats_reset (s : ReceiverState) (now : Int) :
    (log_stats s now).1.packets_received = 0 ∧ (log_stats s now).1.bytes_received = 0 ∧
    (log_stats s now).1.video_frames = 0 ∧ (log_stats s now).1.audio_frames = 0 :=
  ⟨rfl, rfl, rfl, rfl⟩

/-- C3 (code bug): the 38-byte datagram `c3data` (valid magic, media_type 0,
fragment_index 1, fragment_count 1) drives `add_fragment` into its
completion join with index 0 absent from the map, raising `KeyError`; the
exception escapes `process_packet` uncaught (`Except.error ()`); the receive
loop catches only `socket.timeout` and `KeyboardInterrupt`, so one such
datagram kills the process, contradicting the spec's rule that no datagram
content is fatal. -/
theorem C3_fatal_datagram :
    process_packet initReceiverState c3data = Except.error () := by decide

/-- C2 as written is false on the code: after the first fragment of sequence
2 supersedes incomplete sequence 1 (and completes, emitting a frame for 2),
a redelivered fragment of sequence 1 re-opens sequence 1 and completes it,
so the emitted sequence numbers are [2, 1] — not strictly increasing. -/
theorem C2_counterexample :
    emittedSeqs initReassembler
      [(mkHeader 1 0 2, [1]), (mkHeader 2 0 1, [2]), (mkHeader 1 0 1, [3])] = [2, 1] ∧
    ¬ List.Chain' (· < ·) (emittedSeqs initReassembler
      [(mkHeader 1 0 2, [1]), (mkHeader 2 0 1, [2]), (mkHeader 1 0 1, [3])]) := by
  have h : emittedSeqs initReassembler
      [(mkHeader 1 0 2, [1]), (mkHeader 2 0 1, [2]), (mkHeader 1 0 1, [3])] = [2, 1] := by
    decide
  refine ⟨h, ?_⟩
  rw [h]
  intro hc
  exact absurd (List.chain'_cons.mp hc).1 (by omega)

/-- C2 amended: a frame emitted by a call carries that call's sequence
number, so once an older sequence has been superseded, a frame for it can be
emitted only if fragments bearing its sequence number are delivered again:
from any reassembler state, a run of calls none of which carries sequence
number S emits no frame for S. -/
theorem C2_no_frame_without_redelivery (S : Nat)
    (trace : List (PacketHeader × ByteStr)) (r : Reassembler)
    (hS : ∀ e ∈ trace, e.1.sequence_number ≠ S) :
    S ∉ emittedSeqs r trace := by
  induction trace generalizing r with
  | nil => simp [emittedSeqs]
  | cons hd t ih =>
    obtain ⟨hh, hp⟩ := hd
    have hhS : hh.sequence_number ≠ S := hS (hh, hp) (List.mem_cons_self _ _)
    have htS : ∀ e ∈ t, e.1.sequence_number ≠ S := fun e he => hS e (List.mem_cons_of_mem _ he)
    cases hadd : add_fragment r hh hp with
    | error e => simp [emittedSeqs, hadd]
    | ok res =>
      obtain ⟨r', out⟩ := res
      cases out with
      | none =>
        simp only [emittedSeqs, hadd]
        exact ih r' htS
      | some f =>
        simp only [emittedSeqs, hadd, List.mem_cons]
        push_neg
        exact ⟨Ne.symm hhS, ih r' htS⟩

theorem C2_no_frame_without_redelivery_witness :
    (∀ e ∈ [(mkHeader 1 0 1, ([1] : ByteStr))], e.1.sequence_number ≠ 5) ∧
    5 ∉ emittedSeqs initReassembler [(mkHeader 1 0 1, [1])] :=
  ⟨by decide, C2_no_frame_without_redelivery 5 [(mkHeader 1 0 1, [1])] initReassembler (by decide)⟩

/-- C4 as written is false on the code: with sequence 7 current,
expected_count = 2 recorded from the first fragment, the second distinct
index arrives carrying fragment_count = 3; the number of distinct stored
indices (2) equals expected_count (2), yet no frame is emitted — the code
compares against the incoming header's fragment_count (3), so a later
fragment's count does change the completion threshold. -/
theorem C4_counterexample :
    runTrace initReassembler [(mkHeader 7 0 2, [1]), (mkHeader 7 1 3, [2])] =
      Except.ok ((⟨[(0, [1]), (1, [2])], some 7, 2⟩ : Reassembler), [none, none]) ∧
    runTrace initReassembler [(mkHeader 7 0 2, [1]), (mkHeader 7 1 3, [2])] ≠
      Except.ok ((⟨[], none, 2⟩ : Reassembler), [none, some ([1] ++ [2])]) := by
  constructor
  · decide
  · decide

/-- C4 amended: for a call carrying the current sequence number, completion
is decided by comparing the stored-entry count after the insert to the
fragment_count carried by that call's header — the recorded expected_count
is never consulted (the call's outcome is identical under any value of
expected_count) — and on completion the frame is the index-ordered
concatenation over 0..fragment_count-1 of the current header. -/
theorem C4_completion_uses_header_count (r : Reassembler) (e : Nat) (h : PacketHeader)
    (pl : ByteStr) (hcur : r.current_sequence = some h.sequence_number) :
    outcomeOf (add_fragment { r with expected_count := e } h pl) =
      outcomeOf (add_fragment r h pl) ∧
    (∀ r' frame, add_fragment r h pl = Except.ok (r', some frame) →
      (dictInsert r.fragments h.fragment_index pl).length = h.fragment_count ∧
      ∃ parts, collectRange (dictInsert r.fragments h.fragment_index pl)
          (List.range h.fragment_count) = some parts ∧ frame = parts.flatten) ∧
    ((dictInsert r.fragments h.fragment_index pl).length ≠ h.fragment_count →
      add_fragment r h pl =
        Except.ok ({ r with fragments := dictInsert r.fragments h.fragment_index pl },
          none)) := by
  refine ⟨?_, ?_, fun hne => add_fragment_store r h pl hcur hne⟩
  · by_cases hlen : (dictInsert r.fragments h.fragment_index pl).length = h.fragment_count
    · cases hcol : collectRange (dictInsert r.fragments h.fragment_index pl)
          (List.range h.fragment_count) with
      | none =>
        rw [add_fragment_keyerror r h pl hcur hlen hcol,
            add_fragment_keyerror { r with expected_count := e } h pl hcur hlen hcol]
      | some parts =>
        rw [add_fragment_complete r h pl parts hcur hlen hcol,
            add_fragment_complete { r with expected_count := e } h pl parts hcur hlen hcol]
        rfl
    · rw [add_fragment_store r h pl hcur hlen,
          add_fragment_store { r with expected_count := e } h pl hcur hlen]
      rfl
  · intro r' frame hok
    by_cases hlen : (dictInsert r.fragments h.fragment_index pl).length = h.fragment_count
    · cases hcol : collectRange (dictInsert r.fragments h.fragment_index pl)
          (List.range h.fragment_count) with
      | none =>
        rw [add_fragment_keyerror r h pl hcur hlen hcol] at hok
        cases hok
      | some parts =>
        rw [add_fragment_complete r h pl parts hcur hlen hcol] at hok
        simp only [Except.ok.injEq, Prod.mk.injEq, Option.some.injEq] at hok
        exact ⟨hlen, parts, rfl, hok.2.symm⟩
    · rw [add_fragment_store r h pl hcur hlen] at hok
      simp at hok

theorem C4_completion_uses_header_count_witness :
    ((⟨[(0, [1])], some 7, 2⟩ : Reassembler).current_sequence =
      some (mkHeader 7 1 3).sequence_number) ∧
    outcomeOf (add_fragment (⟨[(0, [1])], some 7, 99⟩ : Reassembler) (mkHeader 7 1 3) [2]) =
      outcomeOf (add_fragment (⟨[(0, [1])], some 7, 2⟩ : Reassembler) (mkHeader 7 1 3) [2]) := by
  refine ⟨by decide, ?_⟩
  exact (C4_completion_uses_header_count (⟨[(0, [1])], some 7, 2⟩ : Reassembler) 99
    (mkHeader 7 1 3) [2] (by decide)).1

/-! ### Header parsing -/

theorem parse_header_length (data : ByteStr) (h : PacketHeader)
    (hp : parse_header data = some h) : 38 ≤ data.length := by
  by_contra hlt
  push_neg at hlt
  unfold parse_header HEADER_SIZE at hp
  rw [if_pos hlt] at hp
  cases hp

/-- C6: `parse_header` returns none exactly when the input is shorter than
38 bytes or its first four bytes, read big-endian, differ from 0x4E444942;
on every input of at least 38 bytes with the correct magic it returns the
header whose fields are extracted big-endian at the fixed offsets of the
wire table, whatever the other field values. -/
theorem C6_parse_none_iff (data : ByteStr) :
    (parse_header data = none ↔ data.length < 38 ∨ readBE data 0 4 ≠ 0x4E444942) ∧
    (38 ≤ data.length → readBE data 0 4 = 0x4E444942 →
      parse_header data = some ⟨0x4E444942, data.getD 4 0, data.getD 5 0, data.getD 6 0,
        data.getD 7 0, readBE data 8 4, readBE data 12 8, readBE data 20 4, readBE data 24 2,
        readBE data 26 2, readBE data 28 2, readBE data 30 4, data.getD 34 0,
        data.getD 7 0 &&& 1 == 1⟩) := by
  constructor
  · by_cases hlt : data.length < 38
    · simp [parse_header, HEADER_SIZE, hlt]
    · by_cases hmg : readBE data 0 4 = 0x4E444942
      · simp [parse_header, HEADER_SIZE, MAGIC, hlt, hmg]
      · simp [parse_header, HEADER_SIZE, MAGIC, hlt, hmg]
  · intro h1 h2
    have hlt : ¬ data.length < 38 := by omega
    simp [parse_header, HEADER_SIZE, MAGIC, hlt, h2]

theorem C6_parse_none_iff_witness :
    38 ≤ c6data.length ∧ readBE c6data 0 4 = 0x4E444942 ∧
    parse_header c6data = some ⟨0x4E444942, 1, 0, 7, 1, 42, 9, 6, 0, 2, 3, 44100, 2, true⟩ := by
  refine ⟨by decide, by decide, ?_⟩
  have h := (C6_parse_none_iff c6data).2 (by decide) (by decide)
  rw [h]
  decide

/-! ### Duplicate-index inserts -/

theorem findKey_map_replace_self {β : Type} (m : List (Nat × β)) (k : Nat) (v : β)
    (hf : (findKey m k).isSome) :
    findKey (m.map fun e => if e.1 = k then (k, v) else e) k = some v := by
  induction m with
  | nil => simp [findKey] at hf
  | cons e t ih =>
    by_cases h1 : e.1 = k
    · simp [findKey, h1]
    · simp only [findKey, h1, if_false] at hf
      simpa [findKey, h1] using ih hf

theorem findKey_map_replace_other {β : Type} (m : List (Nat × β)) (k : Nat) (v : β)
    (j : Nat) (hj : j ≠ k) :
    findKey (m.map fun e => if e.1 = k then (k, v) else e) j = findKey m j := by
  induction m with
  | nil => simp [findKey]
  | cons e t ih =>
    by_cases h1 : e.1 = k
    · have h2 : ¬ e.1 = j := by rw [h1]; exact Ne.symm hj
      simp only [List.map_cons, if_pos h1, findKey]
      rw [if_neg (Ne.symm hj), if_neg h2]
      exact ih
    · simp only [List.map_cons, if_neg h1, findKey]
      by_cases h2 : e.1 = j
      · rw [if_pos h2, if_pos h2]
      · rw [if_neg h2, if_neg h2]
        exact ih

theorem findKey_append_single {β : Type} (m : List (Nat × β)) (k : Nat) (v : β)
    (j : Nat) (hj : j ≠ k) : findKey (m ++ [(k, v)]) j = findKey m j := by
  induction m with
  | nil => simp [findKey, Ne.symm hj]
  | cons e t ih =>
    by_cases h2 : e.1 = j
    · simp [findKey, h2]
    · simp [findKey, h2, ih]

theorem findKey_append_none {β : Type} (m m' : List (Nat × β)) (k : Nat)
    (hf : findKey m k = none) : findKey (m ++ m') k = findKey m' k := by
  induction m with
  | nil => simp
  | cons e t ih =>
    by_cases h1 : e.1 = k
    · simp [findKey, h1] at hf
    · simp only [findKey, h1, if_false] at hf
      simp only [List.cons_append, findKey, if_neg h1]
      exact ih hf

theorem findKey_dictInsert_self {β : Type} (m : List (Nat × β)) (k : Nat) (v : β) :
    findKey (dictInsert m k v) k = some v := by
  unfold dictInsert
  by_cases hf : (findKey m k).isSome
  · rw [if_pos hf]
    exact findKey_map_replace_self m k v hf
  · rw [if_neg hf]
    have hnone : findKey m k = none := by
      cases hcase : findKey m k
      · rfl
      · rw [hcase] at hf; simp at hf
    rw [findKey_append_none m [(k, v)] k hnone]
    simp [findKey]

theorem findKey_dictInsert_other {β : Type} (m : List (Nat × β)) (k : Nat) (v : β)
    (j : Nat) (hj : j ≠ k) :
    findKey (dictInsert m k v) j = findKey m j := by
  unfold dictInsert
  by_cases hf : (findKey m k).isSome
  · rw [if_pos hf]
    exact findKey_map_replace_other m k v j hj
  · rw [if_neg hf]
    exact findKey_append_single m k v j hj

theorem dictInsert_length_of_mem {β : Type} (m : List (Nat × β)) (k : Nat) (v : β)
    (hf : (findKey m k).isSome) : (dictInsert m k v).length = m.length := by
  unfold dictInsert
  rw [if_pos hf, List.length_map]

/-- C8: when the incoming fragment's index is already stored for the active
sequence, the insert replaces the stored payload in place: the entry count
is unchanged, the index now maps to the new payload, every other index is
untouched, and — the distinct-index count not having advanced — the call
returns none whenever that unchanged count differs from the header's
fragment_count. -/
theorem C8_duplicate_overwrite (r : Reassembler) (h : PacketHeader) (pl : ByteStr)
    (hcur : r.current_sequence = some h.sequence_number)
    (hdup : (findKey r.fragments h.fragment_index).isSome) :
    (dictInsert r.fragments h.fragment_index pl).length = r.fragments.length ∧
    findKey (dictInsert r.fragments h.fragment_index pl) h.fragment_index = some pl ∧
    (∀ j, j ≠ h.fragment_index →
      findKey (dictInsert r.fragments h.fragment_index pl) j = findKey r.fragments j) ∧
    (r.fragments.length ≠ h.fragment_count →
      add_fragment r h pl =
        Except.ok ({ r with fragments := dictInsert r.fragments h.fragment_index pl },
          none)) := by
  refine ⟨dictInsert_length_of_mem r.fragments h.fragment_index pl hdup,
    findKey_dictInsert_self r.fragments h.fragment_index pl,
    fun j hj => findKey_dictInsert_other r.fragments h.fragment_index pl j hj,
    fun hne => add_fragment_store r h pl hcur ?_⟩
  rw [dictInsert_length_of_mem r.fragments h.fragment_index pl hdup]
  exact hne

theorem C8_duplicate_overwrite_witness :
    ((⟨[(0, [9]), (1, [8])], some 4, 2⟩ : Reassembler).current_sequence =
      some (mkHeader 4 0 3).sequence_number) ∧
    (findKey (⟨[(0, [9]), (1, [8])], some 4, 2⟩ : Reassembler).fragments
      (mkHeader 4 0 3).fragment_index).isSome ∧
    add_fragment (⟨[(0, [9]), (1, [8])], some 4, 2⟩ : Reassembler) (mkHeader 4 0 3) [7] =
      Except.ok ((⟨[(0, [7]), (1, [8])], some 4, 2⟩ : Reassembler), none) := by
  refine ⟨by decide, by decide, ?_⟩
  have h := (C8_duplicate_overwrite (⟨[(0, [9]), (1, [8])], some 4, 2⟩ : Reassembler)
    (mkHeader 4 0 3) [7] (by decide) (by decide)).2.2.2 (by decide)
  rw [h]
  decide

/-- C10: for a well-formed datagram (parse succeeds) whose total length is
less than 38 + payloadSize, `process_packet` performs no length validation:
the payload slice `data[38 : 38 + payload_size]` silently truncates to
`data[38..]`, which is shorter than the declared size, and is handed to the
reassembler unchanged — the packet is counted and processed, never
discarded (video routing shown; the slice facts are media-independent). -/
theorem C10_truncated_payload (s : ReceiverState) (data : ByteStr) (h : PacketHeader)
    (hp : parse_header data = some h) (hshort : data.length < 38 + h.payload_size) :
    (data.drop 38).take h.payload_size = data.drop 38 ∧
    (data.drop 38).length < h.payload_size ∧
    (h.media_type = 0 → ∀ vr out,
      add_fragment s.video_reassembler h (data.drop 38) = Except.ok (vr, out) →
      process_packet s data = Except.ok
        ((⟨vr, s.audio_reassembler, s.packets_received + 1, s.bytes_received + data.length,
           s.video_frames, s.audio_frames, s.last_stats_time⟩ : ReceiverState),
         match out with
         | none => PacketAction.noFrame
         | some frame => if frame = [] then PacketAction.noFrame
                         else PacketAction.videoFrame frame)) := by
  have h38 := parse_header_length data h hp
  have hslice : (data.drop 38).take h.payload_size = data.drop 38 := by
    apply List.take_of_length_le
    rw [List.length_drop]
    omega
  refine ⟨hslice, ?_, ?_⟩
  · rw [List.length_drop]
    omega
  · intro hm vr out hadd
    simp only [process_packet, hp, HEADER_SIZE]
    rw [hslice, hm]
    simp only [if_pos rfl]
    rw [hadd]
    cases out with
    | none => rfl
    | some frame => rfl

theorem C10_truncated_payload_witness :
    parse_header w10data = some w10hdr ∧ w10data.length < 38 + w10hdr.payload_size ∧
    process_packet initReceiverState w10data =
      Except.ok ((⟨⟨[], none, 1⟩, initReassembler, 1, 40, 0, 0, 0⟩ : ReceiverState),
        PacketAction.videoFrame [65, 66]) := by
  refine ⟨by decide, by decide, ?_⟩
  have h := (C10_truncated_payload initReceiverState w10data w10hdr (by decide)
    (by decide)).2.2 (by decide) (⟨[], none, 1⟩ : Reassembler) (some [65, 66]) (by decide)
  rw [h]
  decide

/-! ### The ghost-tagged reassembler and the C5 invariant -/

theorem findKey_map {β γ : Type} (f : β → γ) (m : List (Nat × β)) (k : Nat) :
    findKey (m.map fun e => (e.1, f e.2)) k = (findKey m k).map f := by
  induction m with
  | nil => simp [findKey]
  | cons e t ih =>
    by_cases h1 : e.1 = k
    · simp [findKey, h1]
    · simp [findKey, h1, ih]

theorem dictInsert_strip (m : List (Nat × (ByteStr × Nat))) (k : Nat) (v : ByteStr)
    (s : Nat) :
    (dictInsert m k (v, s)).map (fun e => (e.1, e.2.1)) =
      dictInsert (m.map fun e => (e.1, e.2.1)) k v := by
  unfold dictInsert
  have hiso : (Option.map Prod.fst (findKey m k)).isSome = (findKey m k).isSome := by
    cases findKey m k <;> rfl
  rw [findKey_map Prod.fst m k, hiso]
  by_cases hf : (findKey m k).isSome
  · rw [if_pos hf, if_pos hf, List.map_map, List.map_map]
    apply List.map_congr_left
    intro a _
    by_cases h1 : a.1 = k <;> simp [h1]
  · rw [if_neg hf, if_neg hf]
    simp

theorem tadd_fragment_store (r : TReassembler) (h : PacketHeader) (pl : ByteStr)
    (hcur : r.current_sequence = some h.sequence_number)
    (hlen : (dictInsert r.fragments h.fragment_index (pl, h.sequence_number)).length ≠
      h.fragment_count) :
    tadd_fragment r h pl = Except.ok
      ({ r with fragments := dictInsert r.fragments h.fragment_index (pl, h.sequence_number) },
        none) := by
  simp [tadd_fragment, hcur, hlen]

theorem tadd_fragment_complete (r : TReassembler) (h : PacketHeader) (pl : ByteStr)
    (parts : List ByteStr)
    (hcur : r.current_sequence = some h.sequence_number)
    (hlen : (dictInsert r.fragments h.fragment_index (pl, h.sequence_number)).length =
      h.fragment_count)
    (hcol : collectRange ((dictInsert r.fragments h.fragment_index
        (pl, h.sequence_number)).map fun e => (e.1, e.2.1))
        (List.range h.fragment_count) = some parts) :
    tadd_fragment r h pl = Except.ok
      ({ fragments := [], current_sequence := none,
         expected_count := r.expected_count }, some parts.flatten) := by
  simp [tadd_fragment, hcur, hlen, hcol]

theorem tadd_fragment_keyerror (r : TReassembler) (h : PacketHeader) (pl : ByteStr)
    (hcur : r.current_sequence = some h.sequence_number)
    (hlen : (dictInsert r.fragments h.fragment_index (pl, h.sequence_number)).length =
      h.fragment_count)
    (hcol : collectRange ((dictInsert r.fragments h.fragment_index
        (pl, h.sequence_number)).map fun e => (e.1, e.2.1))
        (List.range h.fragment_count) = none) :
    tadd_fragment r h pl = Except.error () := by
  simp [tadd_fragment, hcur, hlen, hcol]

theorem tadd_fragment_reset (r : TReassembler) (h : PacketHeader) (pl : ByteStr)
    (hne : r.current_sequence ≠ some h.sequence_number) :
    tadd_fragment r h pl =
      tadd_fragment { fragments := [], current_sequence := some h.sequence_number,
                      expected_count := h.fragment_count } h pl := by
  simp [tadd_fragment, hne]

theorem tadd_proj_of_cur (r : TReassembler) (h : PacketHeader) (pl : ByteStr)
    (hcur : r.current_sequence = some h.sequence_number) :
    add_fragment (stripTags r) h pl =
      (tadd_fragment r h pl).map (fun x => (stripTags x.1, x.2)) := by
  by_cases hlen : (dictInsert r.fragments h.fragment_index
      (pl, h.sequence_number)).length = h.fragment_count
  · have hlenL : (dictInsert (stripTags r).fragments h.fragment_index pl).length =
        h.fragment_count := by
      show (dictInsert (r.fragments.map fun e => (e.1, e.2.1))
        h.fragment_index pl).length = h.fragment_count
      rw [← dictInsert_strip, List.length_map]
      exact hlen
    cases hcol : collectRange ((dictInsert r.fragments h.fragment_index
        (pl, h.sequence_number)).map fun e => (e.1, e.2.1))
        (List.range h.fragment_count) with
    | none =>
      have hcolL : collectRange (dictInsert (stripTags r).fragments h.fragment_index pl)
          (List.range h.fragment_count) = none := by
        show collectRange (dictInsert (r.fragments.map fun e => (e.1, e.2.1))
          h.fragment_index pl) (List.range h.fragment_count) = none
        rw [← dictInsert_strip]
        exact hcol
      rw [add_fragment_keyerror (stripTags r) h pl hcur hlenL hcolL,
          tadd_fragment_keyerror r h pl hcur hlen hcol]
      rfl
    | some parts =>
      have hcolL : collectRange (dictInsert (stripTags r).fragments h.fragment_index pl)
          (List.range h.fragment_count) = some parts := by
        show collectRange (dictInsert (r.fragments.map fun e => (e.1, e.2.1))
          h.fragment_index pl) (List.range h.fragment_count) = some parts
        rw [← dictInsert_strip]
        exact hcol
      rw [add_fragment_complete (stripTags r) h pl parts hcur hlenL hcolL,
          tadd_fragment_complete r h pl parts hcur hlen hcol]
      rfl
  · have hlenL : (dictInsert (stripTags r).fragments h.fragment_index pl).length ≠
        h.fragment_count := by
      show (dictInsert (r.fragments.map fun e => (e.1, e.2.1))
        h.fragment_index pl).length ≠ h.fragment_count
      rw [← dictInsert_strip, List.length_map]
      exact hlen
    rw [add_fragment_store (stripTags r) h pl hcur hlenL,
        tadd_fragment_store r h pl hcur hlen]
    simp only [Except.map]
    have hins : dictInsert (stripTags r).fragments h.fragment_index pl =
        (dictInsert r.fragments h.fragment_index (pl, h.sequence_number)).map
          (fun e => (e.1, e.2.1)) := by
      rw [dictInsert_strip]
      rfl
    rw [hins]
    rfl

/-- `tadd_fragment` is `add_fragment` with ghost tags: stripping the tags
from its run recovers the source function exactly. -/
theorem tadd_fragment_proj (r : TReassembler) (h : PacketHeader) (pl : ByteStr) :
    add_fragment (stripTags r) h pl =
      (tadd_fragment r h pl).map (fun x => (stripTags x.1, x.2)) := by
  by_cases hcur : r.current_sequence = some h.sequence_number
  · exact tadd_proj_of_cur r h pl hcur
  · rw [add_fragment_reset (stripTags r) h pl hcur, tadd_fragment_reset r h pl hcur]
    exact tadd_proj_of_cur
      { fragments := [], current_sequence := some h.sequence_number,
        expected_count := h.fragment_count } h pl rfl

theorem findKey_eq_none_iff {β : Type} (m : List (Nat × β)) (k : Nat) :
    findKey m k = none ↔ k ∉ m.map Prod.fst := by
  induction m with
  | nil => simp [findKey]
  | cons e t ih =>
    by_cases h1 : e.1 = k
    · simp [findKey, h1]
    · simp [findKey, h1, ih, Ne.symm h1]

theorem mem_dictInsert {β : Type} (m : List (Nat × β)) (k : Nat) (v : β) (e : Nat × β)
    (he : e ∈ dictInsert m k v) : e ∈ m ∨ e = (k, v) := by
  unfold dictInsert at he
  by_cases hf : (findKey m k).isSome
  · rw [if_pos hf] at he
    rw [List.mem_map] at he
    obtain ⟨a, ham, hae⟩ := he
    by_cases h1 : a.1 = k
    · right
      rw [← hae, if_pos h1]
    · left
      rw [← hae, if_neg h1]
      exact ham
  · rw [if_neg hf] at he
    rcases List.mem_append.mp he with hm | hm
    · left; exact hm
    · right; simpa using hm

theorem keys_dictInsert {β : Type} (m : List (Nat × β)) (k : Nat) (v : β) :
    (dictInsert m k v).map Prod.fst =
      if (findKey m k).isSome then m.map Prod.fst else m.map Prod.fst ++ [k] := by
  unfold dictInsert
  by_cases hf : (findKey m k).isSome
  · rw [if_pos hf, if_pos hf, List.map_map]
    apply List.map_congr_left
    intro a _
    by_cases h1 : a.1 = k <;> simp [h1]
  · rw [if_neg hf, if_neg hf]
    simp

theorem tadd_preserves_cur (r r' : TReassembler) (h : PacketHeader) (pl : ByteStr)
    (out : Option ByteStr)
    (hcur : r.current_sequence = some h.sequence_number)
    (hstep : tadd_fragment r h pl = Except.ok (r', out))
    (hinv : (∀ e ∈ r.fragments, r.current_sequence = some e.2.2) ∧
      (r.fragments.map Prod.fst).Nodup) :
    (∀ e ∈ r'.fragments, r'.current_sequence = some e.2.2) ∧
      (r'.fragments.map Prod.fst).Nodup := by
  by_cases hlen : (dictInsert r.fragments h.fragment_index
      (pl, h.sequence_number)).length = h.fragment_count
  · cases hcol : collectRange ((dictInsert r.fragments h.fragment_index
        (pl, h.sequence_number)).map fun e => (e.1, e.2.1))
        (List.range h.fragment_count) with
    | none =>
      rw [tadd_fragment_keyerror r h pl hcur hlen hcol] at hstep
      cases hstep
    | some parts =>
      rw [tadd_fragment_complete r h pl parts hcur hlen hcol] at hstep
      simp only [Except.ok.injEq, Prod.mk.injEq] at hstep
      obtain ⟨h1, _⟩ := hstep
      subst h1
      exact ⟨by simp, by simp⟩
  · rw [tadd_fragment_store r h pl hcur hlen] at hstep
    simp only [Except.ok.injEq, Prod.mk.injEq] at hstep
    obtain ⟨h1, _⟩ := hstep
    subst h1
    constructor
    · intro e he
      rcases mem_dictInsert _ _ _ e he with hm | hnew
      · show r.current_sequence = some e.2.2
        exact hinv.1 e hm
      · subst hnew
        show r.current_sequence = some h.sequence_number
        exact hcur
    · show ((dictInsert r.fragments h.fragment_index
        (pl, h.sequence_number)).map Prod.fst).Nodup
      rw [keys_dictInsert]
      by_cases hf : (findKey r.fragments h.fragment_index).isSome
      · rw [if_pos hf]
        exact hinv.2
      · rw [if_neg hf]
        have hnone : findKey r.fragments h.fragment_index = none := by
          cases hc : findKey r.fragments h.fragment_index
          · rfl
          · rw [hc] at hf; simp at hf
        have hnotin := (findKey_eq_none_iff r.fragments h.fragment_index).mp hnone
        simp [List.nodup_append, hinv.2, hnotin]

theorem tadd_preserves (r r' : TReassembler) (h : PacketHeader) (pl : ByteStr)
    (out : Option ByteStr)
    (hstep : tadd_fragment r h pl = Except.ok (r', out))
    (hinv : (∀ e ∈ r.fragments, r.current_sequence = some e.2.2) ∧
      (r.fragments.map Prod.fst).Nodup) :
    (∀ e ∈ r'.fragments, r'.current_sequence = some e.2.2) ∧
      (r'.fragments.map Prod.fst).Nodup := by
  by_cases hcur : r.current_sequence = some h.sequence_number
  · exact tadd_preserves_cur r r' h pl out hcur hstep hinv
  · rw [tadd_fragment_reset r h pl hcur] at hstep
    exact tadd_preserves_cur
      { fragments := [], current_sequence := some h.sequence_number,
        expected_count := h.fragment_count } r' h pl out rfl hstep ⟨by simp, by simp⟩

/-- C5 as written is false on the code: from the initial state, sequence 1's
first fragment records expected_count = 3, and three further fragments of
the same sequence carrying fragment_count = 9 grow the map to 4 entries —
exceeding expectedFragmentCount — with no completion and no error. -/
theorem C5_counterexample :
    runTrace initReassembler
      [(mkHeader 1 0 3, [0]), (mkHeader 1 1 9, [1]), (mkHeader 1 2 9, [2]),
        (mkHeader 1 3 9, [3])] =
      Except.ok ((⟨[(0, [0]), (1, [1]), (2, [2]), (3, [3])], some 1, 3⟩ : Reassembler),
        [none, none, none, none]) ∧
    (⟨[(0, [0]), (1, [1]), (2, [2]), (3, [3])], some 1, 3⟩ : Reassembler).expected_count <
      (⟨[(0, [0]), (1, [1]), (2, [2]), (3, [3])], some 1, 3⟩ : Reassembler).fragments.length := by
  constructor
  · decide
  · decide

/-- C5 amended: in every reachable reassembler state, every stored fragment
belongs to the current sequence — it was stored by an `add_fragment` call
whose sequence number is the state's `current_sequence` (recorded here as a
ghost tag; `tadd_fragment_proj` shows the instrumented step is the source
step) — and the stored fragment indices are distinct; the map size, however,
is not bounded by `expected_count` (see the C5 counterexample), only by the
number of distinct indices delivered for the current sequence. -/
theorem C5_fragments_belong (t : TReassembler) (ht : TReachable t) :
    (∀ e ∈ t.fragments, t.current_sequence = some e.2.2) ∧
      (t.fragments.map Prod.fst).Nodup := by
  induction ht with
  | init => exact ⟨by simp [initTReassembler], by simp [initTReassembler]⟩
  | step r r' h pl out hr hstep ih => exact tadd_preserves r r' h pl out hstep ih

theorem C5_fragments_belong_witness :
    TReachable (⟨[(0, ([5], 3))], some 3, 2⟩ : TReassembler) ∧
    (∀ e ∈ (⟨[(0, ([5], 3))], some 3, 2⟩ : TReassembler).fragments,
      (⟨[(0, ([5], 3))], some 3, 2⟩ : TReassembler).current_sequence = some e.2.2) ∧
    ((⟨[(0, ([5], 3))], some 3, 2⟩ : TReassembler).fragments.map Prod.fst).Nodup := by
  have hstep : tadd_fragment initTReassembler (mkHeader 3 0 2) [5] =
      Except.ok ((⟨[(0, ([5], 3))], some 3, 2⟩ : TReassembler), none) := by decide
  have hreach : TReachable (⟨[(0, ([5], 3))], some 3, 2⟩ : TReassembler) :=
    TReachable.step _ _ _ _ _ TReachable.init hstep
  have h := C5_fragments_belong _ hreach
  exact ⟨hreach, h.1, h.2⟩
